import Mathlib

/-!
Verification development for the numerical core of `gradunwarp`
(`gradunwarp/core/utils.py`): the N-dimensional grid generator
(`meshgrid`), the coordinate transform (`transform_coordinates`), the
memoization wrapper (`Memoize`), the odd-factorial helper
(`odd_factorial_fn`) and the associated Legendre evaluator (`legendre`).

Python/numpy arrays are modelled as a shape (list of dimension sizes)
together with a flat row-major data list; numpy's `reshape` is a pure
metadata change on this representation, exactly as in numpy for
C-contiguous arrays.  Python floats are modelled as real numbers, Python
ints as `Int`/`Nat`.  Functions that can raise are modelled with `Except`.
-/

namespace Gradunwarp

/-! ## Flat row-major indexing -/

/-- Row-major flat index of a multi-index `idx` in an array of shape `s`. -/
def flatIndex : List ℕ → List ℕ → ℕ
  | _ :: ss, i :: is => i * ss.prod + flatIndex ss is
  | _, _ => 0

/-- `idx` is a well-formed multi-index for shape `s`: same rank, every
coordinate below the corresponding dimension. -/
def validIdx : List ℕ → List ℕ → Bool
  | [], [] => true
  | s :: ss, i :: is => decide (i < s) && validIdx ss is
  | _, _ => false

/-- Inverse of `flatIndex`: recover the multi-index of flat position `n`
in shape `s`. -/
def unflatten : List ℕ → ℕ → List ℕ
  | [], _ => []
  | _ :: ss, n => n / ss.prod :: unflatten ss (n % ss.prod)

theorem validIdx_length : ∀ {s idx : List ℕ}, validIdx s idx = true →
    idx.length = s.length
  | [], [], _ => rfl
  | _ :: _, _ :: _, h => by
      simp only [validIdx, Bool.and_eq_true, decide_eq_true_eq] at h
      simpa [List.length_cons] using validIdx_length h.2
  | [], _ :: _, h => by simp [validIdx] at h
  | _ :: _, [], h => by simp [validIdx] at h

theorem flatIndex_lt : ∀ {s idx : List ℕ}, validIdx s idx = true →
    flatIndex s idx < s.prod
  | [], [], _ => by simp [flatIndex]
  | s :: ss, i :: is, h => by
      simp only [validIdx, Bool.and_eq_true, decide_eq_true_eq] at h
      have ih := flatIndex_lt h.2
      simp only [flatIndex, List.prod_cons]
      calc i * ss.prod + flatIndex ss is < i * ss.prod + ss.prod :=
            Nat.add_lt_add_left ih _
        _ = (i + 1) * ss.prod := by ring
        _ ≤ s * ss.prod := Nat.mul_le_mul_right _ h.1
  | [], _ :: _, h => by simp [validIdx] at h
  | _ :: _, [], h => by simp [validIdx] at h

theorem prod_pos_of_valid : ∀ {s idx : List ℕ}, validIdx s idx = true →
    0 < s.prod := by
  intro s idx h
  exact Nat.pos_of_ne_zero (fun h0 => by
    have := flatIndex_lt h
    omega)

theorem unflatten_flatIndex : ∀ {s idx : List ℕ}, validIdx s idx = true →
    unflatten s (flatIndex s idx) = idx
  | [], [], _ => rfl
  | s :: ss, i :: is, h => by
      simp only [validIdx, Bool.and_eq_true, decide_eq_true_eq] at h
      have hlt : flatIndex ss is < ss.prod := flatIndex_lt h.2
      have hpos : 0 < ss.prod := prod_pos_of_valid h.2
      have h1 : (i * ss.prod + flatIndex ss is) / ss.prod = i := by
        rw [Nat.add_comm, Nat.mul_comm i ss.prod, Nat.add_mul_div_left _ _ hpos,
          Nat.div_eq_of_lt hlt, Nat.zero_add]
      have h2 : (i * ss.prod + flatIndex ss is) % ss.prod = flatIndex ss is := by
        rw [Nat.add_comm, Nat.mul_comm i ss.prod, Nat.add_mul_mod_self_left,
          Nat.mod_eq_of_lt hlt]
      simp only [flatIndex, unflatten, h1, h2, unflatten_flatIndex h.2]
  | [], _ :: _, h => by simp [validIdx] at h
  | _ :: _, [], h => by simp [validIdx] at h

theorem validIdx_unflatten : ∀ {s : List ℕ} {n : ℕ}, n < s.prod →
    validIdx s (unflatten s n) = true
  | [], _, h => by simp [unflatten, validIdx]
  | s :: ss, n, h => by
      simp only [List.prod_cons] at h
      have hpos : 0 < ss.prod := by
        rcases Nat.eq_zero_or_pos ss.prod with h0 | h0
        · rw [h0, Nat.mul_zero] at h
          exact absurd h (Nat.not_lt_zero n)
        · exact h0
      simp only [unflatten, validIdx, Bool.and_eq_true, decide_eq_true_eq]
      refine ⟨?_, validIdx_unflatten (Nat.mod_lt _ hpos)⟩
      exact Nat.div_lt_of_lt_mul (by rw [Nat.mul_comm] at h; exact h)

/-! ## Arrays: shape plus flat row-major data -/

/-- A numpy-style array: a shape and flat row-major data.  Out-of-range
reads yield `0`, matching the fact that the modelled code never performs
them. -/
structure NDArray where
  shape : List ℕ
  data : List ℚ
  deriving DecidableEq, Repr

/-- Number of elements (`x.size` in numpy: the product of the shape). -/
def NDArray.size (a : NDArray) : ℕ := a.shape.prod

/-- Plain element read at a multi-index. -/
def NDArray.get (a : NDArray) (idx : List ℕ) : ℚ :=
  a.data.getD (flatIndex a.shape idx) 0

/-- Broadcasting element read: a size-1 dimension repeats its single
entry along that axis (numpy broadcasting for arrays of equal rank, the
only case the modelled code produces). -/
def NDArray.bget (a : NDArray) (idx : List ℕ) : ℚ :=
  a.get (List.zipWith (fun s j => if s = 1 then 0 else j) a.shape idx)

/-- `ndarray.copy()`: same shape, same data (aliasing is outside a pure
model). -/
def NDArray.copy (a : NDArray) : NDArray := ⟨a.shape, a.data⟩

/-- Build the array of shape `s` whose element at each valid multi-index
`idx` is `f idx`, laid out in row-major order. -/
def materialize (s : List ℕ) (f : List ℕ → ℚ) : NDArray :=
  ⟨s, (List.range s.prod).map fun k => f (unflatten s k)⟩

/-- `np.ones(s, dtype=int)` (as rationals). -/
def npOnes (s : List ℕ) : NDArray := ⟨s, List.replicate s.prod 1⟩

/-- Per-dimension combination rule of numpy broadcasting (on compatible
dimensions): a `1` takes the other operand's extent. -/
def combineDim (d1 d2 : ℕ) : ℕ := if d1 = 1 then d2 else d1

/-- Broadcast result shape for two equal-rank shapes. -/
def broadcastShape (s1 s2 : List ℕ) : List ℕ := List.zipWith combineDim s1 s2

/-- numpy element-wise `*` with broadcasting. -/
def npMul (a b : NDArray) : NDArray :=
  materialize (broadcastShape a.shape b.shape) fun idx => a.bget idx * b.bget idx

/-- Broadcast (materialize) an array to shape `s`. -/
def broadcastTo (s : List ℕ) (a : NDArray) : NDArray :=
  materialize s fun idx => a.bget idx

/-- `np.broadcast_arrays(*l)`: broadcast every array to the common shape
obtained by folding the pairwise broadcast rule over all the shapes. -/
def npBroadcastArrays (l : List NDArray) : List NDArray :=
  let n := (l.map (fun a => a.shape.length)).foldr max 0
  let s := l.foldl (fun acc a => broadcastShape acc a.shape) (List.replicate n 1)
  l.map (broadcastTo s)

theorem copy_eq (a : NDArray) : a.copy = a := rfl

theorem materialize_shape (s : List ℕ) (f : List ℕ → ℚ) :
    (materialize s f).shape = s := rfl

/-- Reading a materialized array at a valid index gives the generating
function's value there. -/
theorem get_materialize {s idx : List ℕ} (f : List ℕ → ℚ)
    (h : validIdx s idx = true) : (materialize s f).get idx = f idx := by
  have hlt : flatIndex s idx < s.prod := flatIndex_lt h
  simp only [materialize, NDArray.get]
  rw [List.getD_eq_getElem?_getD, List.getElem?_map, List.getElem?_range hlt]
  simp [unflatten_flatIndex h]

/-- Two materializations at the same shape agree when the generators agree
on valid indices. -/
theorem materialize_congr {s : List ℕ} {f g : List ℕ → ℚ}
    (h : ∀ idx, validIdx s idx = true → f idx = g idx) :
    materialize s f = materialize s g := by
  simp only [materialize, NDArray.mk.injEq, true_and]
  refine List.map_congr_left fun k hk => ?_
  exact h _ (validIdx_unflatten (List.mem_range.mp hk))

theorem get_npOnes {s idx : List ℕ} (h : validIdx s idx = true) :
    (npOnes s).get idx = 1 := by
  have hlt : flatIndex s idx < s.prod := flatIndex_lt h
  simp only [npOnes, NDArray.get]
  rw [List.getD_eq_getElem?_getD, List.getElem?_replicate]
  simp [hlt]

/-- Masking a valid index (the read `bget` performs) keeps it valid. -/
theorem validIdx_mask : ∀ {s idx : List ℕ}, validIdx s idx = true →
    validIdx s (List.zipWith (fun s j => if s = 1 then 0 else j) s idx) = true
  | [], [], _ => rfl
  | d :: ds, i :: is, h => by
      simp only [validIdx, Bool.and_eq_true, decide_eq_true_eq] at h
      simp only [List.zipWith_cons_cons, validIdx, Bool.and_eq_true,
        decide_eq_true_eq]
      refine ⟨?_, validIdx_mask h.2⟩
      by_cases hd : d = 1
      · simp [hd]
      · simpa [hd] using h.1
  | [], _ :: _, h => by simp [validIdx] at h
  | _ :: _, [], h => by simp [validIdx] at h

theorem bget_npOnes {s idx : List ℕ} (h : validIdx s idx = true) :
    (npOnes s).bget idx = 1 :=
  get_npOnes (s := s) (validIdx_mask h)

/-! ## The grid generator `meshgrid`

Embedding of `gradunwarp.core.utils.meshgrid` (and `ndgrid`).  The code
paths are modelled faithfully:

* `np.atleast_1d(*xi)` with exactly one argument returns the array
  itself; the code then returns it (copied or not) when non-empty and
  raises `TypeError('meshgrid() take 1 or more arguments (0 given)')`
  when its size is 0.
* With zero arguments `np.atleast_1d()` returns the empty *list*, so the
  size check is skipped; with the default `indexing='xy'` the statement
  `output[0].shape = ...` then raises `IndexError` (list index out of
  range), while `indexing='ij'` returns the empty list.
* With `n ≥ 2` vectors, vector `i` is reshaped to shape
  `(1,)*i + (len,) + (1,)*(n-i-1)`; under `'xy'` the first two outputs
  are reshaped so output 0 varies along axis 1 and output 1 along axis
  0, and the first two entries of the size list are swapped; the sparse
  mode returns these arrays, the dense mode multiplies each by
  `np.ones(shape, dtype=int)` (`copy=True`) or calls
  `np.broadcast_arrays` (`copy=False`).
-/

inductive Indexing : Type
  | xy
  | ij
  deriving DecidableEq, Repr

inductive MeshgridError : Type
  | emptyArguments   -- TypeError('meshgrid() take 1 or more arguments (0 given)')
  | indexError       -- IndexError from output[0] when the output list is empty
  | valueError       -- ValueError from np.broadcast_arrays() on no arrays
  deriving DecidableEq, Repr

/-- `np.atleast_1d` on one 1-D vector: the vector as an array. -/
def atleast_1d (v : List ℚ) : NDArray := ⟨[v.length], v⟩

/-- The reshape target `s0[:i] + (-1,) + s0[i+1:]` with the inferred
dimension filled in: `i` ones, the length, then `n - i - 1` ones. -/
def axisShape (n i L : ℕ) : List ℕ :=
  List.replicate i 1 ++ L :: List.replicate (n - i - 1) 1

/-- numpy `reshape` on a C-contiguous array: flat data unchanged. -/
def reshape (s : List ℕ) (a : NDArray) : NDArray := ⟨s, a.data⟩

/-- `List.map` with the element position also passed to the function,
starting from position `start`. -/
def mapWithIdx (f : ℕ → α → β) : ℕ → List α → List β
  | _, [] => []
  | i, x :: t => f i x :: mapWithIdx f (i + 1) t

/-- Swap the first two entries of a list (`shape[0], shape[1] =
shape[1], shape[0]`). -/
def swap01 : List α → List α
  | a :: b :: t => b :: a :: t
  | l => l

/-- The `output` list before the `'xy'` axis swap: vector `i` reshaped to
vary along axis `i`. -/
def meshOutputPre (xs : List (List ℚ)) : List NDArray :=
  mapWithIdx (fun i v => reshape (axisShape xs.length i v.length) (atleast_1d v))
    0 xs

/-- The `output` list after the optional `'xy'` swap of the first two
axes. -/
def meshOutput (indexing : Indexing) (xs : List (List ℚ)) : List NDArray :=
  let output := meshOutputPre xs
  match indexing with
  | .ij => output
  | .xy =>
      match output with
      | o0 :: o1 :: rest =>
          reshape (axisShape xs.length 1 o0.size) o0 ::
            reshape (axisShape xs.length 0 o1.size) o1 :: rest
      | l => l

/-- The `shape` list (`[x.size for x in output]`, first two entries
swapped under `'xy'`): the full dense grid shape. -/
def meshShape (indexing : Indexing) (xs : List (List ℚ)) : List ℕ :=
  let shape := (meshOutputPre xs).map NDArray.size
  match indexing with
  | .ij => shape
  | .xy => swap01 shape

/-- `meshgrid(*xs, indexing=indexing, sparse=sparse, copy=copy)`.  A
single-argument call returns the bare array in Python; it is wrapped in a
singleton list here for uniform typing. -/
def meshgrid (indexing : Indexing) (sparse copy : Bool)
    (xs : List (List ℚ)) : Except MeshgridError (List NDArray) :=
  match xs with
  | [v] =>
      if v.length > 0 then .ok [if copy then (atleast_1d v).copy else atleast_1d v]
      else .error .emptyArguments
  | [] =>
      -- ndim = 0, output = []: 'xy' indexes output[0] and raises IndexError;
      -- 'ij' falls through and returns the empty list, except that the
      -- dense non-copy path calls np.broadcast_arrays() on no arrays,
      -- which raises ValueError.
      match indexing with
      | .xy => .error .indexError
      | .ij =>
          if sparse then .ok []
          else if copy then .ok []
          else .error .valueError
  | xs =>
      let output := meshOutput indexing xs
      let shape := meshShape indexing xs
      if sparse then
        .ok (if copy then output.map NDArray.copy else output)
      else
        if copy then .ok (output.map fun x => npMul x (npOnes shape))
        else .ok (npBroadcastArrays output)

/-- `ndgrid`: `meshgrid` with `indexing` forced to `'ij'`. -/
def ndgrid (sparse copy : Bool) (xs : List (List ℚ)) :
    Except MeshgridError (List NDArray) :=
  meshgrid .ij sparse copy xs

/-! ### Shape bookkeeping lemmas -/

theorem axisShape_zero (n L : ℕ) :
    axisShape n 0 L = L :: List.replicate (n - 1) 1 := rfl

theorem axisShape_succ (n i L : ℕ) :
    axisShape n (i + 1) L = 1 :: axisShape (n - 1) i L := by
  simp only [axisShape, List.replicate_succ, List.cons_append]
  have : n - (i + 1) - 1 = n - 1 - i - 1 := by omega
  rw [this]

theorem axisShape_length {n i : ℕ} (L : ℕ) (h : i < n) :
    (axisShape n i L).length = n := by
  simp only [axisShape, List.length_append, List.length_replicate,
    List.length_cons]
  omega

theorem axisShape_prod (n i L : ℕ) : (axisShape n i L).prod = L := by
  simp [axisShape]

theorem combineDim_one_left (d : ℕ) : combineDim 1 d = d := rfl

theorem combineDim_one_right (d : ℕ) : combineDim d 1 = d := by
  by_cases h : d = 1 <;> simp [combineDim, h]

theorem broadcastShape_ones_left : ∀ {t : List ℕ} {m : ℕ}, t.length = m →
    broadcastShape (List.replicate m 1) t = t
  | [], 0, _ => rfl
  | d :: t, m + 1, h => by
      simp only [List.length_cons, Nat.succ.injEq] at h
      simp only [broadcastShape, List.replicate_succ, List.zipWith_cons_cons,
        combineDim_one_left]
      exact congrArg _ (broadcastShape_ones_left h)
  | [], _ + 1, h => by simp at h
  | _ :: _, 0, h => by simp at h

theorem broadcastShape_ones_right : ∀ {t : List ℕ} {m : ℕ}, t.length = m →
    broadcastShape t (List.replicate m 1) = t
  | [], 0, _ => rfl
  | d :: t, m + 1, h => by
      simp only [List.length_cons, Nat.succ.injEq] at h
      simp only [broadcastShape, List.replicate_succ, List.zipWith_cons_cons,
        combineDim_one_right]
      exact congrArg _ (broadcastShape_ones_right h)
  | [], _ + 1, h => by simp at h
  | _ :: _, 0, h => by simp at h

/-- Broadcasting an accumulator shape against an `axisShape` touches only
the entry at the varying axis. -/
theorem broadcastShape_at : ∀ (p : List ℕ) (c : ℕ) (r : List ℕ) (L n : ℕ),
    n = p.length + 1 + r.length →
    broadcastShape (p ++ c :: r) (axisShape n p.length L)
      = p ++ combineDim c L :: r
  | [], c, r, L, n, h => by
      simp only [List.nil_append, List.length_nil] at *
      rw [axisShape_zero]
      simp only [broadcastShape, List.zipWith_cons_cons]
      rw [show List.zipWith combineDim r (List.replicate (n - 1) 1) = r from
        broadcastShape_ones_right (by omega)]
  | d :: p, c, r, L, n, h => by
      simp only [List.cons_append, List.length_cons] at *
      rw [axisShape_succ]
      simp only [broadcastShape, List.zipWith_cons_cons, combineDim_one_right]
      rw [show List.zipWith combineDim (p ++ c :: r)
            (axisShape (n - 1) p.length L)
          = broadcastShape (p ++ c :: r) (axisShape (n - 1) p.length L) from rfl]
      rw [broadcastShape_at p c r L (n - 1) (by omega)]

/-! ### `mapWithIdx` lemmas -/

theorem mapWithIdx_length (f : ℕ → α → β) : ∀ (s : ℕ) (l : List α),
    (mapWithIdx f s l).length = l.length
  | _, [] => rfl
  | s, _ :: t => by simp [mapWithIdx, mapWithIdx_length f (s + 1) t]

theorem map_mapWithIdx (f : ℕ → α → β) (g : β → γ) : ∀ (s : ℕ) (l : List α),
    (mapWithIdx f s l).map g = mapWithIdx (fun i a => g (f i a)) s l
  | _, [] => rfl
  | s, _ :: t => by simp [mapWithIdx, map_mapWithIdx f g (s + 1) t]

theorem mapWithIdx_congr {f g : ℕ → α → β}
    (h : ∀ i a, f i a = g i a) : ∀ (s : ℕ) (l : List α),
    mapWithIdx f s l = mapWithIdx g s l
  | _, [] => rfl
  | s, x :: t => by simp [mapWithIdx, h s x, mapWithIdx_congr h (s + 1) t]

theorem mapWithIdx_const (f : α → β) : ∀ (s : ℕ) (l : List α),
    mapWithIdx (fun _ a => f a) s l = l.map f
  | _, [] => rfl
  | s, _ :: t => by simp [mapWithIdx, mapWithIdx_const f (s + 1) t]

theorem mapWithIdx_getD (f : ℕ → α → β) (dA : α) (dB : β) :
    ∀ (s : ℕ) (l : List α) (j : ℕ), j < l.length →
    (mapWithIdx f s l).getD j dB = f (s + j) (l.getD j dA)
  | _, [], j, h => by simp at h
  | s, x :: t, 0, _ => by simp [mapWithIdx]
  | s, x :: t, j + 1, h => by
      simp only [List.length_cons] at h
      simp only [mapWithIdx, List.getD_cons_succ]
      rw [mapWithIdx_getD f dA dB (s + 1) t j (by omega)]
      congr 1
      omega

/-! ### The pre-swap output list and the `shape` list -/

theorem meshOutputPre_length (xs : List (List ℚ)) :
    (meshOutputPre xs).length = xs.length := mapWithIdx_length _ _ _

theorem NDArray.size_axis (n i L : ℕ) (v : List ℚ) :
    NDArray.size ⟨axisShape n i L, v⟩ = L := axisShape_prod n i L

theorem meshOutputPre_sizes (xs : List (List ℚ)) :
    (meshOutputPre xs).map NDArray.size = xs.map List.length := by
  rw [meshOutputPre, map_mapWithIdx]
  have h := mapWithIdx_congr
    (f := fun i (a : List ℚ) =>
      (reshape (axisShape xs.length i a.length) (atleast_1d a)).size)
    (g := fun _ (a : List ℚ) => a.length)
    (fun i v => axisShape_prod xs.length i v.length) 0 xs
  rw [h]
  exact mapWithIdx_const List.length 0 xs

theorem meshShape_ij (xs : List (List ℚ)) :
    meshShape .ij xs = xs.map List.length := meshOutputPre_sizes xs

theorem meshShape_xy (xs : List (List ℚ)) :
    meshShape .xy xs = swap01 (xs.map List.length) :=
  congrArg swap01 (meshOutputPre_sizes xs)

/-! ### Reading the sparse outputs -/

theorem flatIndex_mask_ones : ∀ (m : ℕ) (is : List ℕ),
    flatIndex (List.replicate m 1)
      (List.zipWith (fun s j => if s = 1 then 0 else j)
        (List.replicate m 1) is) = 0
  | 0, _ => rfl
  | _ + 1, [] => rfl
  | m + 1, i :: is => by
      simp only [List.replicate_succ, List.zipWith_cons_cons, flatIndex]
      simp only [if_true, Nat.zero_mul, Nat.zero_add]
      exact flatIndex_mask_ones m is

/-- The flat position read by `bget` on an axis-aligned array is the
index's coordinate along the varying axis (`0` for a size-1 axis). -/
theorem flatIndex_mask_axis : ∀ (i n L : ℕ) (idx : List ℕ),
    flatIndex (axisShape n i L)
      (List.zipWith (fun s j => if s = 1 then 0 else j)
        (axisShape n i L) idx)
      = if L = 1 then 0 else idx.getD i 0
  | 0, n, L, [] => by
      rw [axisShape_zero]
      simp only [List.zipWith_nil_right, flatIndex, List.getD_nil]
      by_cases hL : L = 1 <;> simp [hL]
  | 0, n, L, j :: is => by
      rw [axisShape_zero]
      simp only [List.zipWith_cons_cons, flatIndex, List.prod_replicate,
        one_pow, Nat.mul_one, List.getD_cons_zero]
      rw [flatIndex_mask_ones]
      omega
  | i + 1, n, L, [] => by
      rw [axisShape_succ]
      simp only [List.zipWith_nil_right, flatIndex, List.getD_nil]
      by_cases hL : L = 1 <;> simp [hL]
  | i + 1, n, L, j :: is => by
      rw [axisShape_succ]
      simp only [List.zipWith_cons_cons, flatIndex, List.getD_cons_succ]
      simp only [if_true, Nat.zero_mul, Nat.zero_add]
      exact flatIndex_mask_axis i (n - 1) L is

theorem bget_axis (i n L : ℕ) (v : List ℚ) (idx : List ℕ) :
    NDArray.bget ⟨axisShape n i L, v⟩ idx
      = v.getD (if L = 1 then 0 else idx.getD i 0) 0 := by
  simp only [NDArray.bget, NDArray.get]
  rw [flatIndex_mask_axis]

theorem bget_axis_of_lt {i n L : ℕ} {v : List ℚ} {idx : List ℕ}
    (h : idx.getD i 0 < L) :
    NDArray.bget ⟨axisShape n i L, v⟩ idx = v.getD (idx.getD i 0) 0 := by
  rw [bget_axis]
  by_cases hL : L = 1
  · subst hL
    rw [if_pos rfl]
    have h0 : idx.getD i 0 = 0 := by omega
    rw [h0]
  · simp [hL]

theorem validIdx_getD_lt : ∀ {s idx : List ℕ}, validIdx s idx = true →
    ∀ j, j < s.length → idx.getD j 0 < s.getD j 1
  | [], [], _, j, hj => by simp at hj
  | d :: ds, i :: is, h, j, hj => by
      simp only [validIdx, Bool.and_eq_true, decide_eq_true_eq] at h
      cases j with
      | zero => simpa using h.1
      | succ j =>
          simp only [List.length_cons] at hj
          simpa using validIdx_getD_lt h.2 j (by omega)
  | [], _ :: _, h, _, _ => by simp [validIdx] at h
  | _ :: _, [], h, _, _ => by simp [validIdx] at h

/-! ### Dense mode: multiplying by `ones` is broadcasting -/

theorem broadcastShape_axis_left : ∀ (i : ℕ) (t : List ℕ) (n L : ℕ),
    t.length = n → i < n → t.getD i 1 = L →
    broadcastShape (axisShape n i L) t = t
  | 0, c :: r, n, L, hlen, hi, hget => by
      rw [axisShape_zero]
      simp only [List.getD_cons_zero] at hget
      simp only [broadcastShape, List.zipWith_cons_cons]
      rw [show List.zipWith combineDim (List.replicate (n - 1) 1) r = r from
        broadcastShape_ones_left (by simp at hlen; omega)]
      subst hget
      by_cases hc : c = 1 <;> simp [combineDim, hc]
  | i + 1, c :: r, n, L, hlen, hi, hget => by
      rw [axisShape_succ]
      simp only [List.getD_cons_succ] at hget
      simp only [broadcastShape, List.zipWith_cons_cons, combineDim_one_left]
      rw [show List.zipWith combineDim (axisShape (n - 1) i L) r
            = broadcastShape (axisShape (n - 1) i L) r from rfl]
      rw [broadcastShape_axis_left i r (n - 1) L (by simp at hlen; omega)
        (by omega) hget]
  | _, [], n, L, hlen, hi, _ => by
      simp only [List.length_nil] at hlen
      omega

theorem npMul_ones (a : NDArray) (t : List ℕ)
    (h : broadcastShape a.shape t = t) :
    npMul a (npOnes t) = broadcastTo t a := by
  simp only [npMul, broadcastTo]
  rw [show (npOnes t).shape = t from rfl, h]
  exact materialize_congr fun idx hv => by rw [bget_npOnes hv, mul_one]

/-! ### The common shape computed by `np.broadcast_arrays` -/

theorem foldr_max_const {n : ℕ} : ∀ {l : List ℕ}, l ≠ [] →
    (∀ x ∈ l, x = n) → l.foldr max 0 = n
  | [x], _, h => by simp [h x (by simp)]
  | x :: y :: t, _, h => by
      have hx : x = n := h x (by simp)
      have ht : (y :: t).foldr max 0 = n :=
        foldr_max_const (by simp) (fun z hz => h z (List.mem_cons_of_mem x hz))
      simp only [List.foldr_cons] at *
      rw [hx, ht, Nat.max_self]

/-- Folding the broadcast rule over the tail of the output list fills in
the remaining lengths one axis at a time. -/
theorem fold_broadcast_axis : ∀ (t : List (List ℚ)) (p : List ℕ) (n : ℕ),
    n = p.length + t.length →
    List.foldl (fun acc a => broadcastShape acc a.shape)
      (p ++ List.replicate t.length 1)
      (mapWithIdx
        (fun i v => reshape (axisShape n i v.length) (atleast_1d v))
        p.length t)
    = p ++ t.map List.length
  | [], p, n, _ => by simp [mapWithIdx]
  | v :: t', p, n, hn => by
      simp only [mapWithIdx, List.foldl_cons, List.length_cons,
        List.replicate_succ]
      have h1 : broadcastShape (p ++ 1 :: List.replicate t'.length 1)
          (reshape (axisShape n p.length v.length) (atleast_1d v)).shape
          = (p ++ [v.length]) ++ List.replicate t'.length 1 := by
        rw [show (reshape (axisShape n p.length v.length)
              (atleast_1d v)).shape = axisShape n p.length v.length from rfl]
        rw [broadcastShape_at p 1 (List.replicate t'.length 1) v.length n
          (by simp at hn ⊢; omega)]
        simp [combineDim_one_left]
      rw [h1]
      have h2 := fold_broadcast_axis t' (p ++ [v.length]) n
        (by simp at hn ⊢; omega)
      simp only [List.length_append, List.length_cons, List.length_nil,
        Nat.zero_add] at h2
      rw [h2]
      simp

/-! ### Structure of the output list for two or more vectors -/

theorem range_map_getD (v : List ℚ) :
    (List.range v.length).map (fun k => v.getD k 0) = v := by
  apply List.ext_getElem
  · simp
  · intro i h1 h2
    simp only [List.getElem_map, List.getElem_range]
    exact List.getD_eq_getElem v 0 (by simpa using h2)

/-- Broadcasting a 1-D vector array to its own shape reproduces it. -/
theorem broadcastTo_atleast_1d (v : List ℚ) :
    broadcastTo [v.length] (atleast_1d v) = atleast_1d v := by
  simp only [broadcastTo, materialize, atleast_1d, NDArray.mk.injEq,
    List.prod_cons, List.prod_nil, Nat.mul_one, true_and]
  rw [show (List.range v.length).map
        (fun k => NDArray.bget ⟨[v.length], v⟩ (unflatten [v.length] k))
      = (List.range v.length).map (fun k => v.getD k 0) from ?_]
  · exact range_map_getD v
  · refine List.map_congr_left fun k hk => ?_
    have hk' : k < v.length := List.mem_range.mp hk
    have hunf : unflatten [v.length] k = [k] := by
      simp [unflatten, List.prod_nil]
    rw [hunf]
    have : ([k] : List ℕ).getD 0 0 < v.length := by simpa using hk'
    have h1d : ([v.length] : List ℕ) = axisShape 1 0 v.length := rfl
    rw [h1d]
    exact bget_axis_of_lt this

theorem meshOutputPre_cons (a b : List ℚ) (t : List (List ℚ)) :
    meshOutputPre (a :: b :: t)
      = reshape (axisShape (t.length + 2) 0 a.length) (atleast_1d a)
        :: reshape (axisShape (t.length + 2) 1 b.length) (atleast_1d b)
        :: mapWithIdx (fun i v =>
            reshape (axisShape (t.length + 2) i v.length) (atleast_1d v))
          2 t := rfl

theorem meshOutput_ij_cons (a b : List ℚ) (t : List (List ℚ)) :
    meshOutput .ij (a :: b :: t) = meshOutputPre (a :: b :: t) := rfl

theorem meshOutput_xy_cons (a b : List ℚ) (t : List (List ℚ)) :
    meshOutput .xy (a :: b :: t)
      = reshape (axisShape (t.length + 2) 1 a.length) (atleast_1d a)
        :: reshape (axisShape (t.length + 2) 0 b.length) (atleast_1d b)
        :: mapWithIdx (fun i v =>
            reshape (axisShape (t.length + 2) i v.length) (atleast_1d v))
          2 t := by
  simp only [meshOutput, meshOutputPre_cons]
  simp only [reshape, atleast_1d, NDArray.size, axisShape_prod]
  rfl

theorem meshShape_ij_cons (a b : List ℚ) (t : List (List ℚ)) :
    meshShape .ij (a :: b :: t) = a.length :: b.length :: t.map List.length := by
  rw [meshShape_ij]
  rfl

theorem meshShape_xy_cons (a b : List ℚ) (t : List (List ℚ)) :
    meshShape .xy (a :: b :: t) = b.length :: a.length :: t.map List.length := by
  rw [meshShape_xy]
  rfl

theorem mem_mapWithIdx (d : α) {f : ℕ → α → β} :
    ∀ {s : ℕ} {l : List α} {x : β}, x ∈ mapWithIdx f s l →
    ∃ j, j < l.length ∧ x = f (s + j) (l.getD j d)
  | _, [], x, h => absurd h (by simp [mapWithIdx])
  | s, v :: t, x, h => by
      simp only [mapWithIdx, List.mem_cons] at h
      rcases h with h | h
      · exact ⟨0, by simp, by simpa using h⟩
      · rcases mem_mapWithIdx d h with ⟨j, hj, hx⟩
        refine ⟨j + 1, by simpa using hj, ?_⟩
        rw [hx, List.getD_cons_succ]
        congr 1
        omega

/-- Every dense-mode factor: each output array is axis-aligned, and the
full `shape` list records its length at its varying axis. -/
theorem meshOutput_mem_spec (ind : Indexing) (a b : List ℚ)
    (t : List (List ℚ)) :
    ∀ x ∈ meshOutput ind (a :: b :: t), ∃ i L,
      i < t.length + 2 ∧ x.shape = axisShape (t.length + 2) i L ∧
      (meshShape ind (a :: b :: t)).getD i 1 = L := by
  intro x hx
  cases ind with
  | ij =>
      rw [meshOutput_ij_cons, meshOutputPre_cons] at hx
      rw [meshShape_ij_cons]
      simp only [List.mem_cons] at hx
      rcases hx with hx | hx | hx
      · exact ⟨0, a.length, by omega, congrArg NDArray.shape hx, rfl⟩
      · exact ⟨1, b.length, by omega, congrArg NDArray.shape hx, rfl⟩
      · rcases mem_mapWithIdx [] hx with ⟨j, hj, hxj⟩
        refine ⟨2 + j, (t.getD j []).length, by omega,
          congrArg NDArray.shape hxj, ?_⟩
        rw [show 2 + j = j + 2 from by omega]
        simp only [List.getD_cons_succ]
        rw [List.getD_eq_getElem _ _ (by simpa using hj),
          List.getElem_map, List.getD_eq_getElem _ _ hj]
  | xy =>
      rw [meshOutput_xy_cons] at hx
      rw [meshShape_xy_cons]
      simp only [List.mem_cons] at hx
      rcases hx with hx | hx | hx
      · exact ⟨1, a.length, by omega, congrArg NDArray.shape hx, rfl⟩
      · exact ⟨0, b.length, by omega, congrArg NDArray.shape hx, rfl⟩
      · rcases mem_mapWithIdx [] hx with ⟨j, hj, hxj⟩
        refine ⟨2 + j, (t.getD j []).length, by omega,
          congrArg NDArray.shape hxj, ?_⟩
        rw [show 2 + j = j + 2 from by omega]
        simp only [List.getD_cons_succ]
        rw [List.getD_eq_getElem _ _ (by simpa using hj),
          List.getElem_map, List.getD_eq_getElem _ _ hj]

/-! ### The sparse and dense results of `meshgrid` -/

theorem map_copy_id (l : List NDArray) : l.map NDArray.copy = l := by
  simp [show NDArray.copy = id from funext copy_eq]

theorem meshgrid_sparse_cons (ind : Indexing) (copy : Bool)
    (a b : List ℚ) (t : List (List ℚ)) :
    meshgrid ind true copy (a :: b :: t)
      = .ok (meshOutput ind (a :: b :: t)) := by
  cases copy <;> simp [meshgrid, map_copy_id]

theorem npBroadcastArrays_mesh (ind : Indexing) (a b : List ℚ)
    (t : List (List ℚ)) :
    npBroadcastArrays (meshOutput ind (a :: b :: t))
      = (meshOutput ind (a :: b :: t)).map
          (broadcastTo (meshShape ind (a :: b :: t))) := by
  have hrank : ((meshOutput ind (a :: b :: t)).map
      (fun x => x.shape.length)).foldr max 0 = t.length + 2 := by
    apply foldr_max_const
    · cases ind <;>
        simp [meshOutput_ij_cons, meshOutput_xy_cons, meshOutputPre_cons]
    · intro x hx
      simp only [List.mem_map] at hx
      rcases hx with ⟨y, hy, rfl⟩
      rcases meshOutput_mem_spec ind a b t y hy with ⟨i, L, hi, hs, _⟩
      rw [hs]
      exact axisShape_length L hi
  have hfold : (meshOutput ind (a :: b :: t)).foldl
      (fun acc x => broadcastShape acc x.shape)
      (List.replicate (t.length + 2) 1) = meshShape ind (a :: b :: t) := by
    cases ind with
    | ij =>
        rw [meshOutput_ij_cons, meshShape_ij, meshOutputPre]
        have h := fold_broadcast_axis (a :: b :: t) [] ((a :: b :: t).length)
          (by simp)
        simpa using h
    | xy =>
        rw [meshOutput_xy_cons, meshShape_xy_cons]
        simp only [List.foldl_cons]
        rw [show List.replicate (t.length + 2) 1
            = 1 :: 1 :: List.replicate t.length 1 from rfl]
        rw [show (reshape (axisShape (t.length + 2) 1 a.length)
            (atleast_1d a)).shape = axisShape (t.length + 2) 1 a.length
          from rfl]
        have s1 : broadcastShape (1 :: 1 :: List.replicate t.length 1)
            (axisShape (t.length + 2) 1 a.length)
            = 1 :: a.length :: List.replicate t.length 1 := by
          have h := broadcastShape_at [1] 1 (List.replicate t.length 1)
            a.length (t.length + 2) (by simp; omega)
          simpa [combineDim_one_left] using h
        rw [s1]
        rw [show (reshape (axisShape (t.length + 2) 0 b.length)
            (atleast_1d b)).shape = axisShape (t.length + 2) 0 b.length
          from rfl]
        have s2 : broadcastShape (1 :: a.length :: List.replicate t.length 1)
            (axisShape (t.length + 2) 0 b.length)
            = b.length :: a.length :: List.replicate t.length 1 := by
          have h := broadcastShape_at [] 1
            (a.length :: List.replicate t.length 1) b.length (t.length + 2)
            (by simp; omega)
          simpa [combineDim_one_left] using h
        rw [s2]
        have s3 := fold_broadcast_axis t [b.length, a.length] (t.length + 2)
          (by simp; omega)
        simpa using s3
  simp only [npBroadcastArrays]
  rw [hrank, hfold]

theorem meshShape_length (ind : Indexing) (a b : List ℚ)
    (t : List (List ℚ)) :
    (meshShape ind (a :: b :: t)).length = t.length + 2 := by
  cases ind <;> simp [meshShape_ij_cons, meshShape_xy_cons]

theorem meshgrid_dense_cons (ind : Indexing) (copy : Bool)
    (a b : List ℚ) (t : List (List ℚ)) :
    meshgrid ind false copy (a :: b :: t)
      = .ok ((meshOutput ind (a :: b :: t)).map
          (broadcastTo (meshShape ind (a :: b :: t)))) := by
  cases copy with
  | false =>
      simp only [meshgrid, Bool.false_eq_true, if_false]
      rw [npBroadcastArrays_mesh]
  | true =>
      simp only [meshgrid, Bool.false_eq_true, if_false, if_true]
      congr 1
      refine List.map_congr_left fun x hx => ?_
      rcases meshOutput_mem_spec ind a b t x hx with ⟨i, L, hi, hs, hL⟩
      refine npMul_ones x _ ?_
      rw [hs]
      exact broadcastShape_axis_left i _ (t.length + 2) L
        (meshShape_length ind a b t) hi hL

theorem meshShape_single (ind : Indexing) (v : List ℚ) :
    meshShape ind [v] = [v.length] := by
  cases ind
  · rw [meshShape_xy]
    rfl
  · rw [meshShape_ij]
    rfl

/-- Master equivalence: on one or more coordinate vectors, the dense
result is the sparse result with every array broadcast to the full grid
shape — in every indexing and copy mode. -/
theorem meshgrid_dense_eq_sparse (ind : Indexing) (copy : Bool)
    (xs : List (List ℚ)) (hne : xs ≠ []) :
    meshgrid ind false copy xs
      = Except.map (List.map (broadcastTo (meshShape ind xs)))
          (meshgrid ind true copy xs) := by
  match xs with
  | [] => exact absurd rfl hne
  | [v] =>
      by_cases hv : 0 < v.length
      · cases copy <;>
          simp [meshgrid, hv, meshShape_single, copy_eq,
            broadcastTo_atleast_1d, Except.map]
      · simp [meshgrid, hv, Except.map]
  | a :: b :: t =>
      rw [meshgrid_dense_cons, meshgrid_sparse_cons]
      rfl

/-! ### Element access in the dense outputs -/

theorem swap01_cons (x y : α) (l : List α) : swap01 (x :: y :: l) = y :: x :: l :=
  rfl

theorem get_broadcastTo {s : List ℕ} (a : NDArray) {idx : List ℕ}
    (h : validIdx s idx = true) : (broadcastTo s a).get idx = a.bget idx :=
  get_materialize _ h

theorem getD_map_lt (f : α → β) (l : List α) (d : β) (d' : α) {k : ℕ}
    (h : k < l.length) : (l.map f).getD k d = f (l.getD k d') := by
  rw [List.getD_eq_getElem _ _ (by simpa using h), List.getElem_map,
    List.getD_eq_getElem _ _ h]

theorem getD_map_length (t : List (List ℚ)) {j : ℕ} (h : j < t.length) :
    (t.map List.length).getD j 1 = (t.getD j []).length :=
  getD_map_lt List.length t 1 [] h

/-- C2: for every dense `meshgrid` call on `N ≥ 2` one-dimensional vectors
of lengths `L1..LN`, `indexing='ij'` yields `N` arrays of shape
`(L1,...,LN)`, `indexing='xy'` yields `N` arrays of shape
`(L2,L1,L3,...,LN)`, and the `'xy'` arrays are the `'ij'` arrays with
axes 0 and 1 swapped (element-wise, at every valid index). -/
theorem claim_C2_dense_shapes_swap (xs : List (List ℚ)) (copy : Bool)
    (h2 : 2 ≤ xs.length) :
    ∃ dij dxy : List NDArray,
      meshgrid .ij false copy xs = .ok dij ∧
      meshgrid .xy false copy xs = .ok dxy ∧
      dij.length = xs.length ∧ dxy.length = xs.length ∧
      (∀ x ∈ dij, x.shape = xs.map List.length) ∧
      (∀ x ∈ dxy, x.shape = swap01 (xs.map List.length)) ∧
      (∀ k, k < xs.length → ∀ idx,
        validIdx (swap01 (xs.map List.length)) idx = true →
        (dxy.getD k ⟨[], []⟩).get idx
          = (dij.getD k ⟨[], []⟩).get (swap01 idx)) := by
  match xs, h2 with
  | a :: b :: t, _ =>
    refine ⟨_, _, meshgrid_dense_cons .ij copy a b t,
      meshgrid_dense_cons .xy copy a b t, ?_, ?_, ?_, ?_, ?_⟩
    · rw [List.length_map, meshOutput_ij_cons, meshOutputPre_length]
    · rw [List.length_map, meshOutput_xy_cons]
      simp [mapWithIdx_length]
    · intro x hx
      rcases List.mem_map.mp hx with ⟨y, _, rfl⟩
      rw [show (broadcastTo (meshShape .ij (a :: b :: t)) y).shape
          = meshShape .ij (a :: b :: t) from rfl, meshShape_ij]
    · intro x hx
      rcases List.mem_map.mp hx with ⟨y, _, rfl⟩
      rw [show (broadcastTo (meshShape .xy (a :: b :: t)) y).shape
          = meshShape .xy (a :: b :: t) from rfl, meshShape_xy]
    · intro k hk idx hval
      simp only [List.length_cons] at hk
      simp only [List.map_cons, swap01_cons] at hval ⊢
      -- the index must supply at least two coordinates
      match idx, hval with
      | [], hval => simp [validIdx] at hval
      | [i0], hval => simp [validIdx] at hval
      | i0 :: i1 :: is, hval =>
        simp only [validIdx, Bool.and_eq_true, decide_eq_true_eq] at hval
        obtain ⟨hi0, hi1, his⟩ := hval
        have hvalXY : validIdx
            (b.length :: a.length :: t.map List.length) (i0 :: i1 :: is)
            = true := by
          simp [validIdx, hi0, hi1, his]
        have hvalIJ : validIdx
            (a.length :: b.length :: t.map List.length) (i1 :: i0 :: is)
            = true := by
          simp [validIdx, hi0, hi1, his]
        have hkXY : k < (meshOutput .xy (a :: b :: t)).length := by
          rw [meshOutput_xy_cons]
          simp only [List.length_cons, mapWithIdx_length]
          omega
        have hkIJ : k < (meshOutput .ij (a :: b :: t)).length := by
          rw [meshOutput_ij_cons, meshOutputPre_length]
          simp only [List.length_cons]
          omega
        rw [getD_map_lt _ _ _ ⟨[], []⟩ hkXY, getD_map_lt _ _ _ ⟨[], []⟩ hkIJ]
        rw [swap01_cons]
        rw [get_broadcastTo _ (by rw [meshShape_xy_cons]; exact hvalXY),
          get_broadcastTo _ (by rw [meshShape_ij_cons]; exact hvalIJ)]
        rw [meshOutput_xy_cons, meshOutput_ij_cons, meshOutputPre_cons]
        rcases k with _ | k
        · -- k = 0 : the first output holds vector a
          simp only [List.getD_cons_zero]
          rw [show reshape (axisShape (t.length + 2) 1 a.length) (atleast_1d a)
              = ⟨axisShape (t.length + 2) 1 a.length, a⟩ from rfl]
          rw [show reshape (axisShape (t.length + 2) 0 a.length) (atleast_1d a)
              = ⟨axisShape (t.length + 2) 0 a.length, a⟩ from rfl]
          rw [bget_axis_of_lt (by simpa using hi1),
            bget_axis_of_lt (by simpa using hi1)]
          simp
        rcases k with _ | j
        · -- k = 1 : the second output holds vector b
          simp only [List.getD_cons_succ, List.getD_cons_zero]
          rw [show reshape (axisShape (t.length + 2) 0 b.length) (atleast_1d b)
              = ⟨axisShape (t.length + 2) 0 b.length, b⟩ from rfl]
          rw [show reshape (axisShape (t.length + 2) 1 b.length) (atleast_1d b)
              = ⟨axisShape (t.length + 2) 1 b.length, b⟩ from rfl]
          rw [bget_axis_of_lt (by simpa using hi0),
            bget_axis_of_lt (by simpa using hi0)]
          simp
        · -- k = j + 2 : outputs beyond the first two are identical
          have hj : j < t.length := by omega
          simp only [List.getD_cons_succ]
          rw [mapWithIdx_getD
            (fun i v => reshape (axisShape (t.length + 2) i v.length)
              (atleast_1d v)) [] (⟨[], []⟩ : NDArray) 2 t j hj]
          rw [show reshape
              (axisShape (t.length + 2) (2 + j) (t.getD j []).length)
              (atleast_1d (t.getD j []))
              = ⟨axisShape (t.length + 2) (2 + j) (t.getD j []).length,
                  t.getD j []⟩ from rfl]
          have hbound : (is.getD j 0) < (t.getD j []).length := by
            have h := validIdx_getD_lt his j (by simpa using hj)
            rwa [getD_map_length t hj] at h
          rw [show NDArray.bget
                ⟨axisShape (t.length + 2) (2 + j) (t.getD j []).length,
                  t.getD j []⟩ (i0 :: i1 :: is)
              = (t.getD j []).getD ((i0 :: i1 :: is).getD (2 + j) 0) 0 from
            bget_axis_of_lt (by
              rw [show 2 + j = j + 2 from by omega]
              simpa using hbound)]
          rw [show NDArray.bget
                ⟨axisShape (t.length + 2) (2 + j) (t.getD j []).length,
                  t.getD j []⟩ (i1 :: i0 :: is)
              = (t.getD j []).getD ((i1 :: i0 :: is).getD (2 + j) 0) 0 from
            bget_axis_of_lt (by
              rw [show 2 + j = j + 2 from by omega]
              simpa using hbound)]
          rw [show 2 + j = j + 2 from by omega]
          simp only [List.getD_cons_succ]

/-- C2 witness: `meshgrid([0,1], [0,1,2])` with default options gives two
arrays of shape `(3,2)`; with `indexing='ij'` shape `(2,3)`. -/
theorem claim_C2_witness :
    (2 ≤ ([[0, 1], [0, 1, 2]] : List (List ℚ)).length) ∧
    (∃ dij dxy : List NDArray,
      meshgrid .ij false true [[0, 1], [0, 1, 2]] = .ok dij ∧
      meshgrid .xy false true [[0, 1], [0, 1, 2]] = .ok dxy ∧
      dij.length = 2 ∧ dxy.length = 2 ∧
      (∀ x ∈ dij, x.shape = [2, 3]) ∧
      (∀ x ∈ dxy, x.shape = [3, 2]) ∧
      (∀ k, k < 2 → ∀ idx, validIdx [3, 2] idx = true →
        (dxy.getD k ⟨[], []⟩).get idx
          = (dij.getD k ⟨[], []⟩).get (swap01 idx))) := by
  refine ⟨by simp, ?_⟩
  have h := claim_C2_dense_shapes_swap [[0, 1], [0, 1, 2]] true (by simp)
  simpa [swap01_cons] using h

/-- C7: for every non-empty list of coordinate vectors, every indexing
mode and both copy modes, the dense `meshgrid` result is the sparse
result with each array broadcast to the common full grid shape — the two
are numerically identical. -/
theorem claim_C7_sparse_dense_equal (ind : Indexing) (copy : Bool)
    (xs : List (List ℚ)) (hne : xs ≠ []) :
    meshgrid ind false copy xs
      = Except.map (List.map (broadcastTo (meshShape ind xs)))
          (meshgrid ind true copy xs) :=
  meshgrid_dense_eq_sparse ind copy xs hne

/-- C7 witness: the theorem at two concrete vectors, `'xy'`,
`copy=True`. -/
theorem claim_C7_witness :
    ([[1], [2, 3]] : List (List ℚ)) ≠ [] ∧
    meshgrid .xy false true [[1], [2, 3]] = Except.map
      (List.map (broadcastTo (meshShape .xy [[1], [2, 3]])))
      (meshgrid .xy true true [[1], [2, 3]]) := by
  exact ⟨by simp, claim_C7_sparse_dense_equal .xy true [[1], [2, 3]] (by simp)⟩

/-- C3 (the code, evaluated): a zero-argument call raises `IndexError`
under the default `indexing='xy'` (not the `EmptyArguments` `TypeError`)
and silently returns the empty list under `'ij'`; the `EmptyArguments`
error is raised by a single-argument call with an empty vector; a
single-argument call with a non-empty vector returns it unchanged for
both values of `copy`. -/
theorem claim_C3_empty_call_eval :
    meshgrid .xy false true ([] : List (List ℚ)) = .error .indexError ∧
    meshgrid .ij false true ([] : List (List ℚ)) = .ok [] ∧
    meshgrid .ij false false ([] : List (List ℚ)) = .error .valueError ∧
    meshgrid .xy false true [([] : List ℚ)] = .error .emptyArguments ∧
    meshgrid .xy false true [[(1 : ℚ), 2, 3]] = .ok [⟨[3], [1, 2, 3]⟩] ∧
    meshgrid .xy false false [[(1 : ℚ), 2, 3]] = .ok [⟨[3], [1, 2, 3]⟩] :=
  ⟨rfl, rfl, rfl, rfl, rfl, rfl⟩

/-! ## The coordinate transform -/

/-- `CoordsVector`: the named triple of coordinate arrays.  Arrays are
modelled as functions from an index type `ι` to reals (this covers any
shape, 0-D scalars included, via the choice of `ι`); numpy arithmetic on
them is element-wise. -/
structure CoordsVector (ι : Type) where
  x : ι → ℝ
  y : ι → ℝ
  z : ι → ℝ

/-- The three coordinate arrays, indexed by axis. -/
def CoordsVector.axisGet {ι : Type} (A : CoordsVector ι) : Fin 3 → ι → ℝ
  | 0 => A.x
  | 1 => A.y
  | 2 => A.z

/-- `transform_coordinates(A, M)`: the 4x4 matrix `M` applied to the
coordinate arrays, element-wise. -/
def transform_coordinates {ι : Type} (A : CoordsVector ι)
    (M : Fin 4 → Fin 4 → ℝ) : CoordsVector ι where
  x := fun p => A.x p * M 0 0 + A.y p * M 0 1 + A.z p * M 0 2 + M 0 3
  y := fun p => A.x p * M 1 0 + A.y p * M 1 1 + A.z p * M 1 2 + M 1 3
  z := fun p => A.x p * M 2 0 + A.y p * M 2 1 + A.z p * M 2 2 + M 2 3

/-- C5: for every CoordsVector of same-shaped arrays and every 4x4
matrix, each axis of the result is
`A.x*M[i,0] + A.y*M[i,1] + A.z*M[i,2] + M[i,3]`, element-wise at every
position. -/
theorem claim_C5_transform_formula {ι : Type} (A : CoordsVector ι)
    (M : Fin 4 → Fin 4 → ℝ) (i : Fin 3) (p : ι) :
    (transform_coordinates A M).axisGet i p
      = A.x p * M i.castSucc 0 + A.y p * M i.castSucc 1
        + A.z p * M i.castSucc 2 + M i.castSucc 3 := by
  fin_cases i <;> rfl

/-- C9: `transform_coordinates` never reads the last row of the matrix:
matrices agreeing on rows 0-2 produce identical results. -/
theorem claim_C9_last_row_never_read {ι : Type} (A : CoordsVector ι)
    (M M' : Fin 4 → Fin 4 → ℝ)
    (h : ∀ i : Fin 4, (i : ℕ) < 3 → M i = M' i) :
    transform_coordinates A M = transform_coordinates A M' := by
  have h0 := h 0 (by decide)
  have h1 := h 1 (by decide)
  have h2 := h 2 (by decide)
  simp only [transform_coordinates, h0, h1, h2]

/-- A sample matrix: identity on rows 0-2, zero last row. -/
def wM : Fin 4 → Fin 4 → ℝ := fun i j =>
  if i = 3 then 0 else if (i : ℕ) = (j : ℕ) then 1 else 0

/-- As `wM` on rows 0-2 but with a different last row. -/
def wM' : Fin 4 → Fin 4 → ℝ := fun i j =>
  if i = 3 then (j : ℕ) + 5 else if (i : ℕ) = (j : ℕ) then 1 else 0

/-- A sample 0-D coordinate triple. -/
def wA : CoordsVector Unit := ⟨fun _ => 1, fun _ => 2, fun _ => 3⟩

/-- C9 witness: concrete matrices differing only in the last row give the
same transform of a concrete coordinate triple. -/
theorem claim_C9_witness :
    (∀ i : Fin 4, (i : ℕ) < 3 → wM i = wM' i) ∧
    transform_coordinates wA wM = transform_coordinates wA wM' := by
  have h : ∀ i : Fin 4, (i : ℕ) < 3 → wM i = wM' i := by
    intro i hi
    have hne : i ≠ 3 := by
      intro he
      rw [he] at hi
      exact absurd hi (by decide)
    funext j
    simp [wM, wM', hne]
  exact ⟨h, claim_C9_last_row_never_read wA wM wM' h⟩

/-! ## The memoization wrapper `Memoize` -/

/-- Front-insertion association-list lookup (the membership test and read
of the Python dict, for the hashable keys used here). -/
def lookupArg [DecidableEq α] (a : α) : List (α × β) → Option β
  | [] => none
  | (k, v) :: t => if k = a then some v else lookupArg a t

/-- `Memoize`: the wrapped function together with its cache. -/
structure Memoize (α β : Type) where
  f : α → β
  memo : List (α × β)

/-- `Memoize(f)`: fresh wrapper with an empty cache. -/
def Memoize.init (f : α → β) : Memoize α β := ⟨f, []⟩

/-- One call of the wrapper: on a cache miss evaluate `f`, store the
result, and return it; on a hit return the cached value.  The `Bool`
records whether the underlying `f` was evaluated by this call. -/
def Memoize.call [DecidableEq α] (m : Memoize α β) (a : α) :
    β × Memoize α β × Bool :=
  match lookupArg a m.memo with
  | some b => (b, m, false)
  | none => (m.f a, ⟨m.f, (a, m.f a) :: m.memo⟩, true)

/-- Run a sequence of calls, threading the cache. -/
def Memoize.run [DecidableEq α] (m : Memoize α β) : List α → List β
  | [] => []
  | a :: t => (m.call a).1 :: (m.call a).2.1.run t

/-- How many of the calls in the trace evaluate the underlying `f` at
argument `a`. -/
def Memoize.evalCount [DecidableEq α] (m : Memoize α β) (a : α) :
    List α → ℕ
  | [] => 0
  | b :: t =>
      (if b = a ∧ (m.call b).2.2 = true then 1 else 0)
        + (m.call b).2.1.evalCount a t

theorem Memoize.call_f [DecidableEq α] (m : Memoize α β) (a : α) :
    (m.call a).2.1.f = m.f := by
  unfold Memoize.call
  cases lookupArg a m.memo <;> rfl

theorem lookupArg_mem [DecidableEq α] :
    ∀ {l : List (α × β)} {a : α} {b : β},
    lookupArg a l = some b → (a, b) ∈ l
  | [], _, _, h => by simp [lookupArg] at h
  | (k, v) :: t, a, b, h => by
      by_cases hk : k = a
      · subst hk
        simp only [lookupArg, if_true, eq_self_iff_true,
          Option.some.injEq] at h
        subst h
        exact List.mem_cons_self _ _
      · simp only [lookupArg, if_neg hk] at h
        exact List.mem_cons_of_mem _ (lookupArg_mem h)

/-- Cache coherence: every stored value is the wrapped function's value. -/
def Memoize.Coherent [DecidableEq α] (m : Memoize α β) : Prop :=
  ∀ p ∈ m.memo, p.2 = m.f p.1

theorem Memoize.call_fst [DecidableEq α] {m : Memoize α β}
    (hm : m.Coherent) (a : α) : (m.call a).1 = m.f a := by
  unfold Memoize.call
  rcases hc : lookupArg a m.memo with _ | b
  · rfl
  · exact hm (a, b) (lookupArg_mem hc)

theorem Memoize.call_coherent [DecidableEq α] {m : Memoize α β}
    (hm : m.Coherent) (a : α) : (m.call a).2.1.Coherent := by
  unfold Memoize.call
  rcases hc : lookupArg a m.memo with _ | b
  · intro p hp
    rcases List.mem_cons.mp hp with hp | hp
    · rw [hp]
    · exact hm p hp
  · exact hm

theorem Memoize.run_map [DecidableEq α] :
    ∀ (trace : List α) (m : Memoize α β), m.Coherent →
    m.run trace = trace.map m.f
  | [], _, _ => rfl
  | a :: t, m, hm => by
      simp only [Memoize.run, List.map_cons]
      refine congrArg₂ _ (Memoize.call_fst hm a) ?_
      rw [Memoize.run_map t _ (Memoize.call_coherent hm a), Memoize.call_f]

theorem Memoize.evalCount_le [DecidableEq α] :
    ∀ (trace : List α) (m : Memoize α β) (a : α),
    m.evalCount a trace ≤ if (lookupArg a m.memo).isSome then 0 else 1
  | [], _, _ => Nat.zero_le _
  | b :: t, m, a => by
      have ih := Memoize.evalCount_le t (m.call b).2.1 a
      simp only [Memoize.evalCount]
      rcases hc : lookupArg b m.memo with _ | v
      · -- miss: this call evaluates `f b` and caches it
        simp only [Memoize.call, hc] at ih ⊢
        by_cases hba : b = a
        · subst hba
          simp [lookupArg] at ih
          simp [hc]
          omega
        · have ih2 : Memoize.evalCount ⟨m.f, (b, m.f b) :: m.memo⟩ a t
              ≤ if (lookupArg a m.memo).isSome then 0 else 1 := by
            simpa [lookupArg, hba] using ih
          simpa [hba] using ih2
      · -- hit: the cache and the count are unchanged
        simp only [Memoize.call, hc] at ih ⊢
        simpa using ih

/-- C8: the memoized wrapper returns exactly the values of the wrapped
pure function on every call of any call sequence, and evaluates the
underlying function at most once per distinct argument over its
lifetime. -/
theorem claim_C8_memoize_correct {α β : Type} [DecidableEq α]
    (f : α → β) (trace : List α) :
    (Memoize.init f).run trace = trace.map f ∧
    ∀ a : α, (Memoize.init f).evalCount a trace ≤ 1 := by
  constructor
  · exact Memoize.run_map trace _ (fun p hp => absurd hp (by simp [Memoize.init]))
  · intro a
    have h := Memoize.evalCount_le trace (Memoize.init f) a
    simpa [Memoize.init, lookupArg] using h

/-! ## The odd-factorial helper -/

/-- The loop of `odd_factorial_fn`: `f = k; while k >= 3: k -= 2; f *= k`. -/
def odd_fac_loop (f k : ℤ) : ℤ :=
  if _h : 3 ≤ k then odd_fac_loop (f * (k - 2)) (k - 2) else f
termination_by k.toNat
decreasing_by simp_wf; omega

/-- `odd_factorial_fn(k)` from the source. -/
def odd_factorial_fn (k : ℤ) : ℤ := odd_fac_loop k k

/-- The spec's `oddFactorialProduct`: the product of the odd integers
from `k` down to 1, and 1 when `k < 1` (stated words, written as the
evident recursion stepping down by 2). -/
def oddProductDown (k : ℤ) : ℤ :=
  if _h : 1 ≤ k then k * oddProductDown (k - 2) else 1
termination_by k.toNat
decreasing_by simp_wf; omega

theorem odd_fac_loop_spec : ∀ (m : ℕ) (f : ℤ),
    odd_fac_loop f (2 * (m : ℤ) + 1) = f * oddProductDown (2 * (m : ℤ) - 1)
  | 0, f => by
      rw [odd_fac_loop, dif_neg (by norm_num), oddProductDown,
        dif_neg (by norm_num), mul_one]
  | m + 1, f => by
      push_cast
      rw [odd_fac_loop,
        dif_pos (show (3 : ℤ) ≤ 2 * ((m : ℤ) + 1) + 1 from by omega)]
      rw [show 2 * ((m : ℤ) + 1) + 1 - 2 = 2 * (m : ℤ) + 1 from by ring]
      rw [odd_fac_loop_spec m (f * (2 * (m : ℤ) + 1))]
      rw [show 2 * ((m : ℤ) + 1) - 1 = 2 * (m : ℤ) + 1 from by ring]
      have hx : oddProductDown (2 * (m : ℤ) + 1)
          = (2 * (m : ℤ) + 1) * oddProductDown (2 * (m : ℤ) - 1) := by
        rw [oddProductDown,
          dif_pos (show (1 : ℤ) ≤ 2 * (m : ℤ) + 1 from by omega)]
        rw [show 2 * (m : ℤ) + 1 - 2 = 2 * (m : ℤ) - 1 from by ring]
      rw [hx]
      ring

/-- On the odd arguments `k ≥ 1` that the Legendre seed uses,
`odd_factorial_fn` agrees with the spec's odd product. -/
theorem odd_factorial_eq_oddProduct (k : ℤ) (hk : 1 ≤ k)
    (hodd : k % 2 = 1) : odd_factorial_fn k = oddProductDown k := by
  obtain ⟨m, rfl⟩ : ∃ m : ℕ, k = 2 * (m : ℤ) + 1 := by
    refine ⟨((k - 1) / 2).toNat, ?_⟩
    omega
  rw [odd_factorial_fn, odd_fac_loop_spec m]
  have hx : oddProductDown (2 * (m : ℤ) + 1)
      = (2 * (m : ℤ) + 1) * oddProductDown (2 * (m : ℤ) - 1) := by
    rw [oddProductDown,
      dif_pos (show (1 : ℤ) ≤ 2 * (m : ℤ) + 1 from by omega)]
    rw [show 2 * (m : ℤ) + 1 - 2 = 2 * (m : ℤ) - 1 from by ring]
  rw [hx]

/-- C4 counterexample: at `k = 0` (an integer below 1) the code returns
`0`, not the claimed value `1` of the odd product. -/
theorem claim_C4_counterexample :
    odd_factorial_fn 0 = 0 ∧ oddProductDown 0 = 1 ∧
    odd_factorial_fn 0 ≠ oddProductDown 0 := by
  have h1 : odd_factorial_fn 0 = 0 := by
    rw [odd_factorial_fn, odd_fac_loop,
      dif_neg (show ¬(3 : ℤ) ≤ 0 from by norm_num)]
  have h2 : oddProductDown (0 : ℤ) = 1 := by
    rw [oddProductDown, dif_neg (show ¬(1 : ℤ) ≤ 0 from by norm_num)]
  refine ⟨h1, h2, ?_⟩
  rw [h1, h2]
  norm_num

/-- C4 (amended): for every odd integer `k ≥ 1` — the arguments the
Legendre seed passes — `odd_factorial_fn` returns the product of the odd
integers from `k` down to 1. -/
theorem claim_C4_odd_factorial_amended (k : ℤ) (hk : 1 ≤ k)
    (hodd : k % 2 = 1) : odd_factorial_fn k = oddProductDown k :=
  odd_factorial_eq_oddProduct k hk hodd

/-- C4 witness: at `k = 5` both sides are `5 * 3 * 1`. -/
theorem claim_C4_witness :
    ((1 : ℤ) ≤ 5 ∧ (5 : ℤ) % 2 = 1) ∧
    odd_factorial_fn 5 = oddProductDown 5 :=
  ⟨⟨by norm_num, by norm_num⟩,
   claim_C4_odd_factorial_amended 5 (by norm_num) (by norm_num)⟩

/-! ## The Legendre evaluator -/

inductive LegendreError : Type
  | invalidOrder     -- ValueError('require 0 <= mu <= nu, ...')
  | invalidArgument  -- ValueError('require -1 <= x <= 1, ...')
  deriving DecidableEq, Repr

/-- The recursion loop `for n in xrange(mu + 2, nu + 1)`: `k` remaining
iterations, current degree `n`, previous two terms `prev` and `cur`. -/
noncomputable def legLoop (x : ℝ) (mu : ℤ) : ℕ → ℤ → ℝ → ℝ → ℝ
  | 0, _, _, cur => cur
  | k + 1, n, prev, cur =>
      legLoop x mu k (n + 1) cur
        ((x * (2 * (n : ℝ) - 1) * cur - ((n : ℝ) + (mu : ℝ) - 1) * prev)
          / ((n : ℝ) - (mu : ℝ)))

/-- The initial term `p_nu` of the recursion (`s * odd_factorial(2*mu-1)
* z**mu` with `z = sqrt(1 - x**2)`, or `1.0` for `mu = 0`).  `mu & 1` is
written as `mu % 2 = 1` (equal for the non-negative `mu` that reach it);
the memoized `odd_factorial` is written as the underlying
`odd_factorial_fn` (the wrapper returns the same values, see the
memoization section). -/
noncomputable def legendreSeed (mu : ℤ) (x : ℝ) : ℝ :=
  if mu = 0 then 1
  else (if mu % 2 = 1 then (-1 : ℝ) else 1)
    * ((odd_factorial_fn (2 * mu - 1) : ℤ) : ℝ)
    * Real.sqrt (1 - x ^ 2) ^ mu.toNat

/-- `legendre(nu, mu, x)` from the source: the two guards, the seed, the
`nu == mu` and `nu == mu + 1` early returns, and the loop over
`n = mu+2 .. nu` (`(nu - mu - 1).toNat` iterations, at least one in the
branch that runs it). -/
noncomputable def legendre (nu mu : ℤ) (x : ℝ) : Except LegendreError ℝ :=
  if mu < 0 ∨ nu < mu then .error .invalidOrder
  else if 1 < |x| then .error .invalidArgument
  else if mu = nu then .ok (legendreSeed mu x)
  else if nu = mu + 1 then .ok (x * (2 * (mu : ℝ) + 1) * legendreSeed mu x)
  else .ok (legLoop x mu (nu - mu - 1).toNat (mu + 2) (legendreSeed mu x)
    (x * (2 * (mu : ℝ) + 1) * legendreSeed mu x))

/-- The seed of step 1 of the spec's algorithm:
`sign(mu) * oddFactorialProduct(2*mu-1) * (1 - x^2)^(mu/2)`, and `1.0`
for `mu = 0`. -/
noncomputable def specSeed (mu : ℤ) (x : ℝ) : ℝ :=
  if mu = 0 then 1
  else (if Odd mu then (-1 : ℝ) else 1)
    * ((oddProductDown (2 * mu - 1) : ℤ) : ℝ)
    * (1 - x ^ 2) ^ ((mu : ℝ) / 2)

/-- `term(mu + j)` of the spec's recursion: `term(mu)` is the seed,
`term(mu+1) = x*(2*mu+1)*seed`, and
`term(n) = (x*(2n-1)*term(n-1) - (n+mu-1)*term(n-2)) / (n - mu)`. -/
noncomputable def specTerm (mu : ℤ) (x : ℝ) : ℕ → ℝ
  | 0 => specSeed mu x
  | 1 => x * (2 * (mu : ℝ) + 1) * specSeed mu x
  | j + 2 =>
      (x * (2 * ((mu : ℝ) + (j : ℝ) + 2) - 1) * specTerm mu x (j + 1)
        - (((mu : ℝ) + (j : ℝ) + 2) + (mu : ℝ) - 1) * specTerm mu x j)
      / (((mu : ℝ) + (j : ℝ) + 2) - (mu : ℝ))

/-- The value the spec's algorithm returns for `0 ≤ mu ≤ nu`. -/
noncomputable def legendreSpec (nu mu : ℤ) (x : ℝ) : ℝ :=
  specTerm mu x (nu - mu).toNat

/-! ### Legendre proofs -/

/-- The loop maps two zero carry terms to zero. -/
theorem legLoop_zero (x : ℝ) (mu : ℤ) : ∀ (k : ℕ) (n : ℤ),
    legLoop x mu k n 0 0 = 0
  | 0, _ => rfl
  | k + 1, n => by
      simp only [legLoop, mul_zero, sub_zero, zero_div]
      exact legLoop_zero x mu k (n + 1)

/-- The seed matches the spec seed on `0 ≤ mu`, `|x| ≤ 1`. -/
theorem legendreSeed_eq_specSeed (mu : ℤ) (x : ℝ) (h0 : 0 ≤ mu)
    (hx2 : (0 : ℝ) ≤ 1 - x ^ 2) : legendreSeed mu x = specSeed mu x := by
  rcases eq_or_ne mu 0 with hmu | hmu
  · simp [legendreSeed, specSeed, hmu]
  · rw [legendreSeed, if_neg hmu, specSeed, if_neg hmu]
    have hof : odd_factorial_fn (2 * mu - 1) = oddProductDown (2 * mu - 1) :=
      odd_factorial_eq_oddProduct _ (by omega) (by omega)
    have hpow : Real.sqrt (1 - x ^ 2) ^ mu.toNat
        = (1 - x ^ 2) ^ ((mu : ℝ) / 2) := by
      rw [Real.sqrt_eq_rpow,
        ← Real.rpow_natCast ((1 - x ^ 2) ^ ((1 : ℝ) / 2)) mu.toNat,
        ← Real.rpow_mul hx2]
      congr 1
      have hcast : ((mu.toNat : ℕ) : ℝ) = (mu : ℝ) := by
        exact_mod_cast congrArg (fun z : ℤ => (z : ℝ)) (Int.toNat_of_nonneg h0)
      rw [hcast]
      ring
    rw [hof, hpow]
    simp [Int.odd_iff]

/-- The loop started on two consecutive spec terms lands on the
corresponding later spec term. -/
theorem legLoop_specTerm (x : ℝ) (mu : ℤ) : ∀ (k j : ℕ),
    legLoop x mu k (mu + (j : ℤ) + 2) (specTerm mu x j) (specTerm mu x (j + 1))
      = specTerm mu x (j + 1 + k)
  | 0, j => rfl
  | k + 1, j => by
      have hnew : (x * (2 * ((mu + (j : ℤ) + 2 : ℤ) : ℝ) - 1)
              * specTerm mu x (j + 1)
            - (((mu + (j : ℤ) + 2 : ℤ) : ℝ) + (mu : ℝ) - 1) * specTerm mu x j)
          / (((mu + (j : ℤ) + 2 : ℤ) : ℝ) - (mu : ℝ))
          = specTerm mu x (j + 2) := by
        rw [show specTerm mu x (j + 2)
            = (x * (2 * ((mu : ℝ) + (j : ℝ) + 2) - 1) * specTerm mu x (j + 1)
                - (((mu : ℝ) + (j : ℝ) + 2) + (mu : ℝ) - 1) * specTerm mu x j)
              / (((mu : ℝ) + (j : ℝ) + 2) - (mu : ℝ)) from rfl]
        push_cast
        ring
      simp only [legLoop]
      rw [hnew]
      rw [show mu + (j : ℤ) + 2 + 1 = mu + ((j : ℕ) + 1 : ℕ) + 2 from by
        push_cast; ring]
      rw [show (j + 2 : ℕ) = (j + 1) + 1 from rfl]
      rw [legLoop_specTerm x mu k (j + 1)]
      congr 1
      omega

/-- C1: for `0 ≤ mu ≤ nu` and `-1 ≤ x ≤ 1`, `legendre` returns exactly
the value of the spec's algorithm: the (sign, odd-factorial,
`(1-x^2)^(mu/2)`) seed, the `x*(2*mu+1)*seed` second term, and the
three-term recursion up to degree `nu`. -/
theorem claim_C1_legendre_algorithm (nu mu : ℤ) (x : ℝ)
    (h0 : 0 ≤ mu) (h1 : mu ≤ nu) (h2 : -1 ≤ x) (h3 : x ≤ 1) :
    legendre nu mu x = .ok (legendreSpec nu mu x) := by
  have hord : ¬(mu < 0 ∨ nu < mu) := by omega
  have harg : ¬(1 < |x|) := by
    rw [not_lt, abs_le]
    exact ⟨h2, h3⟩
  have hx2 : (0 : ℝ) ≤ 1 - x ^ 2 := by nlinarith
  have hseed := legendreSeed_eq_specSeed mu x h0 hx2
  rw [legendre, if_neg hord, if_neg harg]
  rcases eq_or_ne mu nu with hmn | hmn
  · rw [if_pos hmn, hseed, legendreSpec]
    subst hmn
    rw [show (mu - mu).toNat = 0 from by omega]
    rfl
  · rcases eq_or_ne nu (mu + 1) with hmn1 | hmn1
    · rw [if_neg hmn, if_pos hmn1, hseed, legendreSpec, hmn1]
      rw [show (mu + 1 - mu).toNat = 1 from by omega]
      rfl
    · rw [if_neg hmn, if_neg hmn1, hseed, legendreSpec]
      have h := legLoop_specTerm x mu ((nu - mu - 1).toNat) 0
      rw [show mu + ((0 : ℕ) : ℤ) + 2 = mu + 2 from by push_cast; ring] at h
      rw [show (nu - mu).toNat = 0 + 1 + (nu - mu - 1).toNat from by omega]
      exact congrArg Except.ok h

/-- C1 witness: the theorem applied at `nu = 3`, `mu = 1`, `x = 0`. -/
theorem claim_C1_witness :
    ((0 : ℤ) ≤ 1 ∧ (1 : ℤ) ≤ 3 ∧ (-1 : ℝ) ≤ 0 ∧ (0 : ℝ) ≤ 1) ∧
    legendre 3 1 0 = .ok (legendreSpec 3 1 0) :=
  ⟨⟨by norm_num, by norm_num, by norm_num, by norm_num⟩,
   claim_C1_legendre_algorithm 3 1 0 (by norm_num) (by norm_num)
     (by norm_num) (by norm_num)⟩

/-- C6: `legendre` fails with `InvalidOrder` exactly when
`mu < 0 ∨ mu > nu`; when the order constraint holds it fails with
`InvalidArgument` exactly when `|x| > 1`; when both constraints hold it
returns a value and raises neither error. -/
theorem claim_C6_legendre_guards (nu mu : ℤ) (x : ℝ) :
    (legendre nu mu x = .error .invalidOrder ↔ (mu < 0 ∨ nu < mu)) ∧
    ((0 ≤ mu ∧ mu ≤ nu) →
      (legendre nu mu x = .error .invalidArgument ↔ 1 < |x|)) ∧
    ((0 ≤ mu ∧ mu ≤ nu ∧ |x| ≤ 1) → ∃ y, legendre nu mu x = .ok y) := by
  by_cases hord : mu < 0 ∨ nu < mu
  · rw [legendre, if_pos hord]
    refine ⟨⟨fun _ => hord, fun _ => rfl⟩, fun h => ?_, fun h => ?_⟩
    · obtain ⟨ha, hb⟩ := h
      omega
    · obtain ⟨ha, hb, _⟩ := h
      omega
  · by_cases harg : 1 < |x|
    · rw [legendre, if_neg hord, if_pos harg]
      refine ⟨⟨fun he => absurd he (by simp), fun hc => absurd hc hord⟩,
        fun _ => ⟨fun _ => harg, fun _ => rfl⟩, fun h => ?_⟩
      exact absurd harg (not_lt.mpr h.2.2)
    · have hok : ∃ y, legendre nu mu x = .ok y := by
        rw [legendre, if_neg hord, if_neg harg]
        split_ifs <;> exact ⟨_, rfl⟩
      obtain ⟨y, hy⟩ := hok
      refine ⟨⟨fun he => ?_, fun hc => absurd hc hord⟩,
        fun _ => ⟨fun he => ?_, fun hc => absurd hc harg⟩,
        fun _ => ⟨y, hy⟩⟩
      · rw [hy] at he
        exact absurd he (by simp)
      · rw [hy] at he
        exact absurd he (by simp)

/-- C6 witness: the theorem at `nu = 3`, `mu = 2`, `x = 1/2`. -/
theorem claim_C6_witness :
    (legendre 3 2 (1 / 2 : ℝ) = .error .invalidOrder ↔
      ((2 : ℤ) < 0 ∨ (3 : ℤ) < 2)) ∧
    ((0 : ℤ) ≤ 2 ∧ (2 : ℤ) ≤ 3 →
      (legendre 3 2 (1 / 2 : ℝ) = .error .invalidArgument ↔
        1 < |(1 / 2 : ℝ)|)) ∧
    ((0 : ℤ) ≤ 2 ∧ (2 : ℤ) ≤ 3 ∧ |(1 / 2 : ℝ)| ≤ 1 →
      ∃ y, legendre 3 2 (1 / 2 : ℝ) = .ok y) :=
  claim_C6_legendre_guards 3 2 (1 / 2)

/-- Common endpoint fact: for `1 ≤ mu ≤ nu` and `x² = 1` the seed factor
vanishes and the whole recursion collapses to `0`. -/
theorem legendre_endpoint (nu mu : ℤ) (x : ℝ) (h1 : 1 ≤ mu)
    (h2 : mu ≤ nu) (hx : x ^ 2 = 1) : legendre nu mu x = .ok 0 := by
  have hax : |x| = 1 := by
    have h := sq_abs x
    nlinarith [abs_nonneg x]
  have hord : ¬(mu < 0 ∨ nu < mu) := by omega
  have harg : ¬(1 < |x|) := by
    rw [hax]
    norm_num
  have hz : (1 : ℝ) - x ^ 2 = 0 := by rw [hx]; ring
  have hpow : mu.toNat ≠ 0 := by omega
  have hseed : legendreSeed mu x = 0 := by
    rw [legendreSeed, if_neg (show ¬ mu = 0 from by omega), hz,
      Real.sqrt_zero, zero_pow hpow, mul_zero]
  rw [legendre, if_neg hord, if_neg harg, hseed]
  split_ifs <;> simp [legLoop_zero]

/-- C10: for `1 ≤ mu ≤ nu`, `legendre` returns `0` at both endpoints
`x = 1` and `x = -1`. -/
theorem claim_C10_endpoints (nu mu : ℤ) (h1 : 1 ≤ mu) (h2 : mu ≤ nu) :
    legendre nu mu 1 = .ok 0 ∧ legendre nu mu (-1) = .ok 0 :=
  ⟨legendre_endpoint nu mu 1 h1 h2 (by norm_num),
   legendre_endpoint nu mu (-1) h1 h2 (by norm_num)⟩

/-- C10 witness: the theorem at `nu = 2`, `mu = 1`. -/
theorem claim_C10_witness :
    ((1 : ℤ) ≤ 1 ∧ (1 : ℤ) ≤ 2) ∧
    legendre 2 1 1 = .ok 0 ∧ legendre 2 1 (-1) = .ok 0 :=
  ⟨⟨le_refl 1, by norm_num⟩,
   claim_C10_endpoints 2 1 (le_refl 1) (by norm_num)⟩

end Gradunwarp
